import Mathlib

/-!
Verification development for the QB-Scanner repository
(`src/PhoneQrScanner.tsx`).

The heart of the program is `extractPhoneNumber`, a pure function that
scans a decoded QR payload with an ordered list of JavaScript regular
expressions, normalizes each match, validates its digit count and shapes
the output.  We embed it here over `List Char`:

* `RE` / `lens` / `matchAll` is a small regular-expression engine with
  JavaScript semantics: `lens r cs` enumerates, in the engine's greedy
  backtracking priority order, the lengths of the matches of `r` anchored
  at the start of `cs` (head = the match JS would report), and `matchAll`
  reproduces `String.prototype.match` with the `g` flag (leftmost match,
  continue after each match, advance one position on failure or on an
  empty match).
* The six patterns `pat1` … `pat6` transcribe the six entries of the
  source's `phonePatterns` array.  JavaScript's `\s` is modelled by the
  ASCII whitespace characters, and `\d` / `[0-9]` by code points 48–57.
* `normCand` transcribes the per-match normalization (prefix strip, trim,
  `+` handling, digit filter, length validation, output shaping) and
  `extractPhoneNumber` the pattern loop with its whole-input fallback.

The stateful parts of the component (scan ticks, SMS hand-off, file
selection, camera permission) are embedded as explicit state-passing
functions further below.
-/

/-- `[n, n-1, …, 1]`: the backtracking priority order of a greedy `+`
over a character class that matched `n` characters. -/
def descList : Nat → List Nat
  | 0 => []
  | n + 1 => (n + 1) :: descList n

/-- Length of the maximal prefix of `cs` whose characters satisfy `p`. -/
def countPrefixRun (p : Char → Bool) : List Char → Nat
  | [] => 0
  | c :: cs => if p c then countPrefixRun p cs + 1 else 0

/-- The regular-expression shapes used by the source's `phonePatterns`:
the empty expression, single-character classes, concatenation,
prioritized alternation (left first, as in a backtracking engine) and
greedy `[class]+`.  Greedy bounded repetition `a{lo,hi}` (and so `a?`
and `a{n}`) is encoded below by `reRange` through `eps`/`seq`/`alt`,
which yields the same backtracking priority order. -/
inductive RE where
  | eps
  | cls (p : Char → Bool)
  | seq (a b : RE)
  | alt (a b : RE)
  | clsPlus (p : Char → Bool)

/-- All lengths of matches of `r` anchored at the start of `cs`, in the
JavaScript engine's backtracking priority order (greedy: longer
repetition counts first; a sequence backtracks its right part first;
an alternation tries its left branch first).  The head of the list is
the match JavaScript reports. -/
def lens : RE → List Char → List Nat
  | .eps, _ => [0]
  | .cls _, [] => []
  | .cls p, c :: _ => if p c then [1] else []
  | .seq a b, cs => (lens a cs).flatMap (fun n => (lens b (cs.drop n)).map (n + ·))
  | .alt a b, cs => lens a cs ++ lens b cs
  | .clsPlus p, cs => descList (countPrefixRun p cs)

/-- `a?` (greedy): try `a`, else the empty match. -/
def reOpt (a : RE) : RE := .alt a .eps

/-- `a{n}`: exactly `n` copies of `a`. -/
def reCount (a : RE) : Nat → RE
  | 0 => .eps
  | n + 1 => .seq a (reCount a n)

/-- `a{0,n}` (greedy): at each step prefer one more `a`. -/
def reUpTo (a : RE) : Nat → RE
  | 0 => .eps
  | n + 1 => reOpt (.seq a (reUpTo a n))

/-- `a{lo,hi}` (greedy): `lo` mandatory copies then up to `hi - lo`
optional ones, preferring more. -/
def reRange (a : RE) (lo hi : Nat) : RE := .seq (reCount a lo) (reUpTo a (hi - lo))

/-- The scan loop of `String.prototype.match` with the `g` flag, with a
structural fuel argument: collect the leftmost match at or after the
current position, resume right after it (one position further for an
empty match), advance one position when no match starts here.  With
`fuel ≥ cs.length` the fuel never runs out. -/
def matchAllGo (r : RE) : Nat → List Char → List (List Char)
  | _, [] => if (lens r []).head? = some 0 then [[]] else []
  | 0, _ :: _ => []
  | fuel + 1, c :: cs =>
    match (lens r (c :: cs)).head? with
    | none => matchAllGo r fuel cs
    | some 0 => [] :: matchAllGo r fuel cs
    | some (n + 1) => (c :: cs).take (n + 1) :: matchAllGo r fuel (cs.drop n)

/-- `String.prototype.match` with the `g` flag: the successive
non-overlapping matches of `r` in `cs`, scanning left to right. -/
def matchAll (r : RE) (cs : List Char) : List (List Char) :=
  matchAllGo r cs.length cs

/-- `[0-9]` / `\d` (code points 48–57). -/
def digC (c : Char) : Bool := 48 ≤ c.toNat && c.toNat ≤ 57

/-- The literal `+` (code point 43). -/
def plusC (c : Char) : Bool := c.toNat == 43

/-- The literal `(`. -/
def lparC (c : Char) : Bool := c.toNat == 40

/-- The literal `)`. -/
def rparC (c : Char) : Bool := c.toNat == 41

/-- JavaScript `\s`, modelled by the ASCII whitespace characters
(space, tab, LF, VT, FF, CR). -/
def wsC (c : Char) : Bool :=
  c.toNat == 32 || c.toNat == 9 || c.toNat == 10 || c.toNat == 11 ||
  c.toNat == 12 || c.toNat == 13

/-- The separator class `[-.\s]` of the phone patterns. -/
def sepC (c : Char) : Bool := c.toNat == 45 || c.toNat == 46 || wsC c

/-- The body class `[0-9\-\s\(\)]` of the `tel:` / `phone:` patterns. -/
def telBodyC (c : Char) : Bool :=
  digC c || c.toNat == 45 || wsC c || lparC c || rparC c

/-- A case-insensitive single letter (for the `i`-flagged patterns). -/
def letterCI (lower upper : Char) (c : Char) : Bool :=
  c.toNat == lower.toNat || c.toNat == upper.toNat

/-- `[-.\s]?` -/
def optSep : RE := reOpt (.cls sepC)

/-- The optional country-code group `(\+\d{1,3}[-.\s]?)?` shared by the
first four patterns. -/
def cgroup : RE :=
  reOpt (.seq (.cls plusC) (.seq (reRange (.cls digC) 1 3) optSep))

/-- `\(?[0-9]{3}\)?[-.\s]?[0-9]{3}[-.\s]?[0-9]{4}` — the body of the
first pattern after the optional country-code group. -/
def p1rest : RE :=
  .seq (reOpt (.cls lparC))
    (.seq (reCount (.cls digC) 3)
      (.seq (reOpt (.cls rparC))
        (.seq optSep
          (.seq (reCount (.cls digC) 3)
            (.seq optSep (reCount (.cls digC) 4))))))

/-- `/(\+\d{1,3}[-.\s]?)?\(?[0-9]{3}\)?[-.\s]?[0-9]{3}[-.\s]?[0-9]{4}/g` -/
def pat1 : RE := .seq cgroup p1rest

/-- `/(\+\d{1,3}[-.\s]?)?[0-9]{10,15}/g` -/
def pat2 : RE := .seq cgroup (reRange (.cls digC) 10 15)

/-- `/(\+\d{1,3}[-.\s]?)?\d{4}[-.\s]?\d{3}[-.\s]?\d{3}/g` -/
def pat3 : RE :=
  .seq cgroup
    (.seq (reCount (.cls digC) 4)
      (.seq optSep
        (.seq (reCount (.cls digC) 3)
          (.seq optSep (reCount (.cls digC) 3)))))

/-- `/(\+\d{1,3}[-.\s]?)?\d{3}[-.\s]?\d{4}[-.\s]?\d{4}/g` -/
def pat4 : RE :=
  .seq cgroup
    (.seq (reCount (.cls digC) 3)
      (.seq optSep
        (.seq (reCount (.cls digC) 4)
          (.seq optSep (reCount (.cls digC) 4)))))

/-- `/tel:\+?[0-9\-\s\(\)]+/gi` -/
def pat5 : RE :=
  .seq (.cls (letterCI 't' 'T'))
    (.seq (.cls (letterCI 'e' 'E'))
      (.seq (.cls (letterCI 'l' 'L'))
        (.seq (.cls (fun c => c.toNat == 58))
          (.seq (reOpt (.cls plusC)) (.clsPlus telBodyC)))))

/-- `/phone:\+?[0-9\-\s\(\)]+/gi` -/
def pat6 : RE :=
  .seq (.cls (letterCI 'p' 'P'))
    (.seq (.cls (letterCI 'h' 'H'))
      (.seq (.cls (letterCI 'o' 'O'))
        (.seq (.cls (letterCI 'n' 'N'))
          (.seq (.cls (letterCI 'e' 'E'))
            (.seq (.cls (fun c => c.toNat == 58))
              (.seq (reOpt (.cls plusC)) (.clsPlus telBodyC)))))))

/-- The source's `phonePatterns` array, in its order. -/
def phonePatterns : List RE := [pat1, pat2, pat3, pat4, pat5, pat6]

/-- ASCII lower-casing, for the case-insensitive prefix strip. -/
def lowC (c : Char) : Char :=
  if 65 ≤ c.toNat ∧ c.toNat ≤ 90 then Char.ofNat (c.toNat + 32) else c

/-- Case-insensitive "does `cs` start with `pat`?" (`pat` given in lower
case). -/
def startsWithCI : List Char → List Char → Bool
  | [], _ => true
  | _ :: _, [] => false
  | p :: ps, c :: cs => lowC c == p && startsWithCI ps cs

/-- `match.replace(/^(tel:|phone:)/i, '')`. -/
def stripTelPhone (cs : List Char) : List Char :=
  if startsWithCI ['t', 'e', 'l', ':'] cs then cs.drop 4
  else if startsWithCI ['p', 'h', 'o', 'n', 'e', ':'] cs then cs.drop 6
  else cs

/-- `String.prototype.trim`, over the modelled whitespace class. -/
def trimL (cs : List Char) : List Char :=
  ((cs.dropWhile wsC).reverse.dropWhile wsC).reverse

/-- `phone.startsWith('+')`. -/
def headIsPlus : List Char → Bool
  | c :: _ => c == '+'
  | [] => false

/-- `phone.replace(/^\+/, '')`: drop one leading `+`. -/
def dropLeadPlus : List Char → List Char
  | [] => []
  | c :: cs => if c = '+' then cs else c :: cs

/-- The per-candidate normalization and validation of
`extractPhoneNumber` (source lines 101–127): strip a `tel:`/`phone:`
prefix and surrounding whitespace, keep a leading `+` while dropping all
other non-digits, validate the digit count against `[10,15]` and shape
the output (`+` kept; `+` prepended when 11 or more digits; bare
otherwise).  `none` when the digit count is out of range. -/
def normCand (m : List Char) : Option (List Char) :=
  let phone0 := trimL (stripTelPhone m)
  let hasPlus := headIsPlus phone0
  let phone := if hasPlus then '+' :: (phone0.drop 1).filter digC
               else phone0.filter digC
  let digitCount := (dropLeadPlus phone).length
  if 10 ≤ digitCount ∧ digitCount ≤ 15 then
    if hasPlus then some phone
    else if 11 ≤ digitCount then some ('+' :: phone)
    else some phone
  else none

/-- The inner `for (const match of matches)` loop: the first candidate of
the list that normalizes and validates. -/
def firstValidCand : List (List Char) → Option (List Char)
  | [] => none
  | m :: ms =>
    match normCand m with
    | some r => some r
    | none => firstValidCand ms

/-- The outer `for (const pattern of phonePatterns)` loop: try each
pattern's global match list in order; the first validated candidate of
the first pattern producing one wins. -/
def tryPatterns : List RE → List Char → Option (List Char)
  | [], _ => none
  | p :: ps, cs =>
    match firstValidCand (matchAll p cs) with
    | some r => some r
    | none => tryPatterns ps cs

/-- `extractPhoneNumber` (source lines 87–140): the pattern loop, then
the fallback that strips every non-digit of the whole input and
validates the residual digit run. -/
def extractPhoneNumber (cs : List Char) : Option (List Char) :=
  match tryPatterns phonePatterns cs with
  | some r => some r
  | none =>
    let digitSequence := cs.filter digC
    if 10 ≤ digitSequence.length ∧ digitSequence.length ≤ 15 then
      some (if 11 ≤ digitSequence.length then '+' :: digitSequence else digitSequence)
    else none

/-- The `PhoneCandidate` invariant of the data model: an optional
leading `+` followed only by digits, with the digit count (excluding the
leading `+`) between 10 and 15 inclusive. -/
def validCand (r : List Char) : Prop :=
  (dropLeadPlus r).all digC = true ∧
  10 ≤ (dropLeadPlus r).length ∧ (dropLeadPlus r).length ≤ 15

instance (r : List Char) : Decidable (validCand r) := by
  unfold validCand; infer_instance

/-- The per-session scanning state touched by `scanVideoFrame` /
`stopScanning` (source lines 143–220): whether the 200 ms poll timer is
installed (`scanIntervalRef`), whether the capture stream is held
(`streamRef`), and the result/UI flags `phoneNumber`, `scanned`,
`error`, `lastScannedContent` plus a count of reported `found`
outcomes.  The video element, canvas and decoder are external; a poll
tick is modelled by the payload the decoder returns on that tick
(`none` when no QR code was decoded). -/
structure ScanState where
  timerActive : Bool
  streamHeld : Bool
  phoneNumber : Option (List Char)
  scanned : Bool
  errorSet : Bool
  lastContent : Option (List Char)
  foundCount : Nat
deriving DecidableEq

/-- The state right after `startScanning` has installed the timer and
stored the stream. -/
def startedScan : ScanState :=
  ⟨true, true, none, false, false, none, 0⟩

/-- `stopScanning` (source lines 208–220): clear the poll timer, stop
and release the stream, detach the video sink. -/
def stopScanning (s : ScanState) : ScanState :=
  { s with timerActive := false, streamHeld := false }

/-- One poll tick of `scanVideoFrame` (source lines 143–177).  `payload`
is what `jsQR` decoded on this tick (`none`: no code / not enough video
data — the tick returns without touching state).  The callback only runs
while the interval timer is installed; a tick arriving after the timer
was cleared leaves the state untouched. -/
def scanVideoFrame (s : ScanState) (payload : Option (List Char)) : ScanState :=
  if s.timerActive = false then s
  else
    match payload with
    | none => s
    | some d =>
      match extractPhoneNumber d with
      | some p =>
        stopScanning { s with lastContent := some d, phoneNumber := some p,
                              scanned := true, foundCount := s.foundCount + 1 }
      | none => { s with lastContent := some d, errorSet := true }

/-- A whole scanning session: the poll ticks in order. -/
def runScan (s : ScanState) (ticks : List (Option (List Char))) : ScanState :=
  ticks.foldl scanVideoFrame s

/-- Outcome of the `sendSms` handler (source lines 310–359): either an
error is reported and no navigation happens, or the environment is asked
to navigate to the constructed `sms:` URI (the handler itself sends
nothing). -/
inductive SmsOutcome where
  | failure (msg : List Char)
  | navigate (uri : List Char)
deriving DecidableEq

/-- Hex digit (upper case), for percent-encoding. -/
def hexDigit (n : Nat) : Char :=
  if n < 10 then Char.ofNat (48 + n) else Char.ofNat (55 + n)

/-- The UTF-8 bytes of a code point. -/
def utf8Bytes (n : Nat) : List Nat :=
  if n < 128 then [n]
  else if n < 2048 then [192 + n / 64, 128 + n % 64]
  else if n < 65536 then [224 + n / 4096, 128 + (n / 64) % 64, 128 + n % 64]
  else [240 + n / 262144, 128 + (n / 4096) % 64, 128 + (n / 64) % 64, 128 + n % 64]

/-- Characters `encodeURIComponent` leaves unescaped:
`A–Z a–z 0–9 - _ . ! ~ * ' ( )`. -/
def uriUnescaped (c : Char) : Bool :=
  (65 ≤ c.toNat && c.toNat ≤ 90) || (97 ≤ c.toNat && c.toNat ≤ 122) || digC c ||
  c.toNat == 45 || c.toNat == 95 || c.toNat == 46 || c.toNat == 33 ||
  c.toNat == 126 || c.toNat == 42 || c.toNat == 39 || lparC c || rparC c

/-- JavaScript's `encodeURIComponent`: unescaped characters pass
through, everything else becomes `%XX` per UTF-8 byte. -/
def encodeURIComponent (cs : List Char) : List Char :=
  cs.flatMap (fun c =>
    if uriUnescaped c then [c]
    else (utf8Bytes c.toNat).flatMap (fun b => ['%', hexDigit (b / 16), hexDigit (b % 16)]))

/-- `sendSms` (source lines 310–359).  `phone` is the current
`phoneNumber` state, `msg` the typed message.  The guard
`!phoneNumber || phoneNumber.length < 10` collapses to
`phone.length < 10` (the empty string has length 0); an empty trimmed
message is the second failure.  Otherwise the handler builds
`sms:<phone>?body=<encoded msg>` and asks the environment to navigate
to it.  (The non-mobile warning does not stop the navigation.) -/
def sendSms (phone msg : List Char) : SmsOutcome :=
  if phone.length < 10 then .failure "Invalid phone number".toList
  else if trimL msg = [] then .failure "Message cannot be empty".toList
  else .navigate ("sms:".toList ++ phone ++ "?body=".toList ++ encodeURIComponent msg)

/-- An uploaded file as `handleFileSelect` sees it: only its declared
media type matters. -/
structure UploadFile where
  mediaType : List Char
deriving DecidableEq

/-- What `handleFileSelect` (source lines 286–295) does with the
selection: invoke `processFileUpload` (the only path to the decoder),
report the invalid-file-type error, or nothing when no file was
selected. -/
inductive FileAction where
  | processed
  | invalidType
  | ignored
deriving DecidableEq

/-- `handleFileSelect`: process the file iff its declared media type
starts with `image/`, otherwise report the error. -/
def handleFileSelect (file : Option UploadFile) : FileAction :=
  match file with
  | none => .ignored
  | some f =>
    if ("image/".toList).isPrefixOf f.mediaType then .processed
    else .invalidType

/-- The component's permission state. -/
inductive PermState where
  | unknown
  | prompt
  | granted
  | denied
deriving DecidableEq

/-- Why `getUserMedia` failed: `NotAllowedError`, `NotFoundError`, or
any other error (with its message). -/
inductive CamFail where
  | notAllowed
  | notFound
  | other (m : List Char)
deriving DecidableEq

/-- What `requestCameraPermission` (source lines 46–76) leaves behind:
its boolean return value, the permission state afterwards, and the error
message afterwards (the handler first clears the error). -/
structure CamResult where
  returned : Bool
  perm : PermState
  errMsg : List Char
deriving DecidableEq

/-- `requestCameraPermission`: on success the transient stream is
released again, the permission state becomes `granted` and `true` is
returned; `NotAllowedError` sets the denied message and the `denied`
state; `NotFoundError` and any other failure only set an error message,
leaving the permission state as it was; every failure returns
`false`. -/
def requestCameraPermission (current : PermState) (outcome : Option CamFail) : CamResult :=
  match outcome with
  | none => ⟨true, .granted, []⟩
  | some .notAllowed =>
      ⟨false, .denied,
       "Camera access denied. Please allow camera access in your browser settings.".toList⟩
  | some .notFound => ⟨false, current, "No camera found on this device.".toList⟩
  | some (.other m) => ⟨false, current, "Camera access failed: ".toList ++ m⟩

/-- The extractor as the specification describes it: the ordered pattern
list, within a pattern its match list in order, first candidate that
normalizes and validates wins, later patterns only when no candidate of
an earlier pattern validates, and the whole-input digit-strip fallback
when every pattern is exhausted. -/
def specExtract (cs : List Char) : Option (List Char) :=
  match phonePatterns.findSome? (fun p => (matchAll p cs).findSome? normCand) with
  | some r => some r
  | none =>
    let residual := cs.filter digC
    if 10 ≤ residual.length ∧ residual.length ≤ 15 then
      some (if 11 ≤ residual.length then '+' :: residual else residual)
    else none

/-- A lower bound on the length of any match of `r`. -/
def minLen : RE → Nat
  | .eps => 0
  | .cls _ => 1
  | .seq a b => minLen a + minLen b
  | .alt a b => min (minLen a) (minLen b)
  | .clsPlus _ => 1

theorem digC_val {c : Char} (h : digC c = true) : 48 ≤ c.toNat ∧ c.toNat ≤ 57 := by
  simpa [digC] using h

theorem digC_plusC {c : Char} (h : digC c = true) : plusC c = false := by
  obtain ⟨h1, h2⟩ := digC_val h
  simp only [plusC, beq_eq_false_iff_ne]
  omega

theorem digC_lparC {c : Char} (h : digC c = true) : lparC c = false := by
  obtain ⟨h1, h2⟩ := digC_val h
  simp only [lparC, beq_eq_false_iff_ne]
  omega

theorem digC_rparC {c : Char} (h : digC c = true) : rparC c = false := by
  obtain ⟨h1, h2⟩ := digC_val h
  simp only [rparC, beq_eq_false_iff_ne]
  omega

theorem digC_wsC {c : Char} (h : digC c = true) : wsC c = false := by
  obtain ⟨h1, h2⟩ := digC_val h
  simp only [wsC, Bool.or_eq_false_iff, beq_eq_false_iff_ne]
  omega

theorem digC_sepC {c : Char} (h : digC c = true) : sepC c = false := by
  obtain ⟨h1, h2⟩ := digC_val h
  simp only [sepC, wsC, Bool.or_eq_false_iff, beq_eq_false_iff_ne]
  omega

theorem digC_tC {c : Char} (h : digC c = true) : letterCI 't' 'T' c = false := by
  obtain ⟨h1, h2⟩ := digC_val h
  have e1 : ('t' : Char).toNat = 116 := rfl
  have e2 : ('T' : Char).toNat = 84 := rfl
  simp only [letterCI, Bool.or_eq_false_iff, beq_eq_false_iff_ne]
  omega

theorem digC_pC {c : Char} (h : digC c = true) : letterCI 'p' 'P' c = false := by
  obtain ⟨h1, h2⟩ := digC_val h
  have e1 : ('p' : Char).toNat = 112 := rfl
  have e2 : ('P' : Char).toNat = 80 := rfl
  simp only [letterCI, Bool.or_eq_false_iff, beq_eq_false_iff_ne]
  omega

theorem digC_not_plus {c : Char} (h : digC c = true) : ¬ c = '+' := by
  intro hc
  subst hc
  exact absurd h (by decide)

theorem lowC_digC {c : Char} (h : digC c = true) : lowC c = c := by
  obtain ⟨h1, h2⟩ := digC_val h
  rw [lowC, if_neg (by omega)]

theorem mem_descList {n k : Nat} : n ∈ descList k ↔ 1 ≤ n ∧ n ≤ k := by
  induction k with
  | zero => simp [descList]; omega
  | succ k ih =>
    simp only [descList, List.mem_cons, ih]
    omega

theorem countPrefixRun_le (p : Char → Bool) (cs : List Char) :
    countPrefixRun p cs ≤ cs.length := by
  induction cs with
  | nil => simp [countPrefixRun]
  | cons c cs ih =>
    simp only [countPrefixRun, List.length_cons]
    split <;> omega

theorem mem_lens_bounds : ∀ (r : RE) (cs : List Char) (n : Nat),
    n ∈ lens r cs → minLen r ≤ n ∧ n ≤ cs.length := by
  intro r
  induction r with
  | eps =>
    intro cs n hn
    simp only [lens, List.mem_singleton] at hn
    simp [hn, minLen]
  | cls p =>
    intro cs n hn
    cases cs with
    | nil => simp [lens] at hn
    | cons c cs =>
      simp only [lens] at hn
      split at hn <;> simp_all [minLen]
  | seq a b iha ihb =>
    intro cs n hn
    simp only [lens, List.mem_flatMap, List.mem_map] at hn
    obtain ⟨k, hk, m, hm, rfl⟩ := hn
    obtain ⟨hk1, hk2⟩ := iha cs k hk
    obtain ⟨hm1, hm2⟩ := ihb (cs.drop k) m hm
    simp only [List.length_drop] at hm2
    constructor
    · simp only [minLen]; omega
    · omega
  | alt a b iha ihb =>
    intro cs n hn
    simp only [lens, List.mem_append] at hn
    rcases hn with hn | hn
    · obtain ⟨h1, h2⟩ := iha cs n hn
      exact ⟨le_trans (Nat.min_le_left _ _) h1, h2⟩
    · obtain ⟨h1, h2⟩ := ihb cs n hn
      exact ⟨le_trans (Nat.min_le_right _ _) h1, h2⟩
  | clsPlus p =>
    intro cs n hn
    rw [lens, mem_descList] at hn
    have := countPrefixRun_le p cs
    exact ⟨hn.1, le_trans hn.2 this⟩

theorem lens_nil_of_short {r : RE} {cs : List Char} (h : cs.length < minLen r) :
    lens r cs = [] := by
  rw [List.eq_nil_iff_forall_not_mem]
  intro n hn
  obtain ⟨h1, h2⟩ := mem_lens_bounds r cs n hn
  omega

theorem lens_cls_pos {p : Char → Bool} {c : Char} (cs : List Char) (h : p c = true) :
    lens (.cls p) (c :: cs) = [1] := by
  simp [lens, h]

theorem lens_cls_neg {p : Char → Bool} {c : Char} (cs : List Char) (h : p c = false) :
    lens (.cls p) (c :: cs) = [] := by
  simp [lens, h]

theorem lens_seq_nil_left {a : RE} (b : RE) {cs : List Char} (h : lens a cs = []) :
    lens (.seq a b) cs = [] := by
  simp [lens, h]

theorem lens_seq_single {a b : RE} {cs : List Char} {n m : Nat}
    (ha : lens a cs = [n]) (hb : lens b (cs.drop n) = [m]) :
    lens (.seq a b) cs = [n + m] := by
  simp [lens, ha, hb]

theorem lens_opt_nil {a : RE} {cs : List Char} (h : lens a cs = []) :
    lens (reOpt a) cs = [0] := by
  simp [reOpt, lens, h]

theorem lens_optCls_digits {p : Char → Bool} (hp : ∀ c, digC c = true → p c = false)
    {cs : List Char} (hd : ∀ c ∈ cs, digC c = true) :
    lens (reOpt (.cls p)) cs = [0] := by
  cases cs with
  | nil => simp [reOpt, lens]
  | cons c cs =>
    exact lens_opt_nil (lens_cls_neg cs (hp c (hd c (List.mem_cons_self c cs))))

theorem lens_count_digits : ∀ (n : Nat) (cs : List Char),
    (∀ c ∈ cs, digC c = true) → n ≤ cs.length →
    lens (reCount (.cls digC) n) cs = [n] := by
  intro n
  induction n with
  | zero => intro cs _ _; simp [reCount, lens]
  | succ n ih =>
    intro cs hd hn
    cases cs with
    | nil => simp at hn
    | cons c cs =>
      have hdc : digC c = true := hd c (List.mem_cons_self c cs)
      have hrest : lens (reCount (.cls digC) n) ((c :: cs).drop 1) = [n] := by
        simp only [List.drop_succ_cons, List.drop_zero]
        exact ih cs (fun x hx => hd x (List.mem_cons_of_mem c hx)) (by simpa using hn)
      rw [reCount, lens_seq_single (lens_cls_pos cs hdc) hrest, Nat.add_comm]

theorem matchAllGo_congr (r : RE) : ∀ (bound : Nat) (cs : List Char), cs.length ≤ bound →
    ∀ f1 f2, cs.length ≤ f1 → cs.length ≤ f2 →
    matchAllGo r f1 cs = matchAllGo r f2 cs := by
  intro bound
  induction bound with
  | zero =>
    intro cs hcs f1 f2 _ _
    have : cs = [] := List.length_eq_zero.mp (Nat.le_zero.mp hcs)
    subst this
    cases f1 <;> cases f2 <;> rfl
  | succ b ih =>
    intro cs hcs f1 f2 h1 h2
    cases cs with
    | nil => cases f1 <;> cases f2 <;> rfl
    | cons c cs =>
      simp only [List.length_cons] at hcs h1 h2
      obtain ⟨f1', rfl⟩ : ∃ k, f1 = k + 1 := ⟨f1 - 1, by omega⟩
      obtain ⟨f2', rfl⟩ : ∃ k, f2 = k + 1 := ⟨f2 - 1, by omega⟩
      have hdrop : ∀ n, (cs.drop n).length ≤ cs.length := by
        intro n
        simp only [List.length_drop]
        omega
      show (match (lens r (c :: cs)).head? with
            | none => matchAllGo r f1' cs
            | some 0 => [] :: matchAllGo r f1' cs
            | some (n + 1) => (c :: cs).take (n + 1) :: matchAllGo r f1' (cs.drop n)) =
           (match (lens r (c :: cs)).head? with
            | none => matchAllGo r f2' cs
            | some 0 => [] :: matchAllGo r f2' cs
            | some (n + 1) => (c :: cs).take (n + 1) :: matchAllGo r f2' (cs.drop n))
      cases (lens r (c :: cs)).head? with
      | none => exact ih cs (by omega) f1' f2' (by omega) (by omega)
      | some n =>
        cases n with
        | zero =>
          show [] :: matchAllGo r f1' cs = [] :: matchAllGo r f2' cs
          rw [ih cs (by omega) f1' f2' (by omega) (by omega)]
        | succ n =>
          show (c :: cs).take (n + 1) :: matchAllGo r f1' (cs.drop n) =
               (c :: cs).take (n + 1) :: matchAllGo r f2' (cs.drop n)
          rw [ih (cs.drop n) (le_trans (hdrop n) (by omega)) f1' f2'
                (le_trans (hdrop n) (by omega)) (le_trans (hdrop n) (by omega))]

theorem matchAll_cons (r : RE) (c : Char) (cs : List Char) :
    matchAll r (c :: cs) =
      match (lens r (c :: cs)).head? with
      | none => matchAll r cs
      | some 0 => [] :: matchAll r cs
      | some (n + 1) => (c :: cs).take (n + 1) :: matchAll r (cs.drop n) := by
  show (match (lens r (c :: cs)).head? with
        | none => matchAllGo r cs.length cs
        | some 0 => [] :: matchAllGo r cs.length cs
        | some (n + 1) => (c :: cs).take (n + 1) :: matchAllGo r cs.length (cs.drop n)) = _
  cases h : (lens r (c :: cs)).head? with
  | none => rfl
  | some n =>
    cases n with
    | zero => rfl
    | succ n =>
      show _ :: matchAllGo r cs.length (cs.drop n) = _ :: matchAll r (cs.drop n)
      rw [matchAllGo_congr r cs.length (cs.drop n)
            (by simp [List.length_drop]) cs.length (cs.drop n).length
            (by simp [List.length_drop]) (le_refl _)]
      rfl

theorem matchAll_nil_of_short {r : RE} :
    ∀ cs, cs.length < minLen r → matchAll r cs = [] := by
  intro cs
  induction cs with
  | nil =>
    intro h
    show (if (lens r []).head? = some 0 then [[]] else []) = []
    rw [lens_nil_of_short h]
    simp
  | cons c cs ih =>
    intro h
    rw [matchAll_cons, lens_nil_of_short h]
    exact ih (by simp at h ⊢; omega)

theorem matchAll_nil_of_clsHead (p : Char → Bool) (b : RE) :
    ∀ cs, (∀ c ∈ cs, p c = false) → matchAll (.seq (.cls p) b) cs = [] := by
  intro cs
  induction cs with
  | nil =>
    intro _
    show (if (lens (.seq (.cls p) b) []).head? = some 0 then [[]] else []) = []
    rw [lens_seq_nil_left b (by simp [lens])]
    simp
  | cons c cs ih =>
    intro h
    rw [matchAll_cons,
        lens_seq_nil_left b (lens_cls_neg cs (h c (List.mem_cons_self c cs)))]
    exact ih (fun x hx => h x (List.mem_cons_of_mem c hx))

theorem lens_cgroup_digits {cs : List Char} (hd : ∀ c ∈ cs, digC c = true) :
    lens cgroup cs = [0] := by
  cases cs with
  | nil => exact lens_opt_nil (lens_seq_nil_left _ rfl)
  | cons c cs =>
    exact lens_opt_nil
      (lens_seq_nil_left _ (lens_cls_neg cs (digC_plusC (hd c (List.mem_cons_self c cs)))))

theorem lens_p1rest_digits {cs : List Char} (hd : ∀ c ∈ cs, digC c = true)
    (h10 : 10 ≤ cs.length) : lens p1rest cs = [10] := by
  have hd3 : ∀ c ∈ cs.drop 3, digC c = true := fun c hc => hd c (List.mem_of_mem_drop hc)
  have hd6 : ∀ c ∈ cs.drop 6, digC c = true := fun c hc => hd c (List.mem_of_mem_drop hc)
  have hG : lens (reCount (.cls digC) 4) (cs.drop 6) = [4] :=
    lens_count_digits 4 _ hd6 (by simp only [List.length_drop]; omega)
  have hF : lens optSep (cs.drop 6) = [0] :=
    lens_optCls_digits (fun _ h => digC_sepC h) hd6
  have hFG : lens (.seq optSep (reCount (.cls digC) 4)) (cs.drop 6) = [0 + 4] :=
    lens_seq_single hF (by simpa using hG)
  have hE : lens (reCount (.cls digC) 3) (cs.drop 3) = [3] :=
    lens_count_digits 3 _ hd3 (by simp only [List.length_drop]; omega)
  have hEFG : lens (.seq (reCount (.cls digC) 3) (.seq optSep (reCount (.cls digC) 4)))
      (cs.drop 3) = [3 + (0 + 4)] :=
    lens_seq_single hE (by simpa [List.drop_drop] using hFG)
  have hD : lens optSep (cs.drop 3) = [0] :=
    lens_optCls_digits (fun _ h => digC_sepC h) hd3
  have hDE : lens (.seq optSep (.seq (reCount (.cls digC) 3)
      (.seq optSep (reCount (.cls digC) 4)))) (cs.drop 3) = [0 + (3 + (0 + 4))] :=
    lens_seq_single hD (by simpa using hEFG)
  have hC : lens (reOpt (.cls rparC)) (cs.drop 3) = [0] :=
    lens_optCls_digits (fun _ h => digC_rparC h) hd3
  have hCD : lens (.seq (reOpt (.cls rparC)) (.seq optSep (.seq (reCount (.cls digC) 3)
      (.seq optSep (reCount (.cls digC) 4))))) (cs.drop 3) = [0 + (0 + (3 + (0 + 4)))] :=
    lens_seq_single hC (by simpa using hDE)
  have hB : lens (reCount (.cls digC) 3) cs = [3] :=
    lens_count_digits 3 _ hd (by omega)
  have hBC : lens (.seq (reCount (.cls digC) 3) (.seq (reOpt (.cls rparC))
      (.seq optSep (.seq (reCount (.cls digC) 3) (.seq optSep (reCount (.cls digC) 4))))))
      cs = [3 + (0 + (0 + (3 + (0 + 4))))] :=
    lens_seq_single hB hCD
  have hA : lens (reOpt (.cls lparC)) cs = [0] :=
    lens_optCls_digits (fun _ h => digC_lparC h) hd
  rw [p1rest, lens_seq_single hA (by simpa using hBC)]

theorem lens_pat1_digits {cs : List Char} (hd : ∀ c ∈ cs, digC c = true)
    (h10 : 10 ≤ cs.length) : lens pat1 cs = [10] := by
  rw [pat1, lens_seq_single (lens_cgroup_digits hd)
        (by simpa using lens_p1rest_digits hd h10)]

theorem stripTelPhone_nil : stripTelPhone [] = [] := rfl

theorem stripTelPhone_cons {c : Char} (rest : List Char)
    (ht : (lowC c == 't') = false) (hp : (lowC c == 'p') = false) :
    stripTelPhone (c :: rest) = c :: rest := by
  simp [stripTelPhone, startsWithCI, ht, hp]

theorem digC_lowC_t {c : Char} (h : digC c = true) : (lowC c == 't') = false := by
  rw [lowC_digC h, beq_eq_false_iff_ne]
  intro hc
  subst hc
  exact absurd h (by decide)

theorem digC_lowC_p {c : Char} (h : digC c = true) : (lowC c == 'p') = false := by
  rw [lowC_digC h, beq_eq_false_iff_ne]
  intro hc
  subst hc
  exact absurd h (by decide)

theorem trimL_eq_self {cs : List Char} (h : ∀ c ∈ cs, wsC c = false) :
    trimL cs = cs := by
  have h1 : cs.dropWhile wsC = cs := by
    cases cs with
    | nil => rfl
    | cons c rest => rw [List.dropWhile_cons, h c (List.mem_cons_self c rest)]; simp
  have h2 : cs.reverse.dropWhile wsC = cs.reverse := by
    cases hr : cs.reverse with
    | nil => rfl
    | cons c rest =>
      have hc : c ∈ cs := by
        rw [← List.mem_reverse, hr]
        exact List.mem_cons_self c rest
      rw [List.dropWhile_cons, h c hc]
      simp
  rw [trimL, h1, h2, List.reverse_reverse]

theorem filter_digC_eq_self {cs : List Char} (h : ∀ c ∈ cs, digC c = true) :
    cs.filter digC = cs :=
  List.filter_eq_self.mpr h

theorem dropLeadPlus_cons_digit {c : Char} (rest : List Char) (h : digC c = true) :
    dropLeadPlus (c :: rest) = c :: rest := by
  rw [dropLeadPlus, if_neg (digC_not_plus h)]

theorem normCand_digits {m : List Char} (hd : ∀ c ∈ m, digC c = true)
    (h1 : 10 ≤ m.length) (h2 : m.length ≤ 15) :
    normCand m = some (if 11 ≤ m.length then '+' :: m else m) := by
  cases m with
  | nil => simp at h1
  | cons c rest =>
    have hdc : digC c = true := hd c (List.mem_cons_self c rest)
    have hstrip : stripTelPhone (c :: rest) = c :: rest :=
      stripTelPhone_cons rest (digC_lowC_t hdc) (digC_lowC_p hdc)
    have htrim : trimL (c :: rest) = c :: rest :=
      trimL_eq_self (fun x hx => digC_wsC (hd x hx))
    have hplus : headIsPlus (c :: rest) = false := by
      simp only [headIsPlus, beq_eq_false_iff_ne]
      exact digC_not_plus hdc
    rw [normCand, hstrip, htrim, hplus]
    simp only [Bool.false_eq_true, if_false]
    rw [filter_digC_eq_self hd, dropLeadPlus_cons_digit rest hdc]
    rw [if_pos ⟨h1, h2⟩]
    by_cases h11 : 11 ≤ (c :: rest).length
    · rw [if_pos h11, if_pos h11]
    · rw [if_neg h11, if_neg h11]

theorem normCand_plus_digits {m : List Char} (hd : ∀ c ∈ m, digC c = true)
    (h1 : 10 ≤ m.length) (h2 : m.length ≤ 15) :
    normCand ('+' :: m) = some ('+' :: m) := by
  have hstrip : stripTelPhone ('+' :: m) = '+' :: m :=
    stripTelPhone_cons m (by decide) (by decide)
  have htrim : trimL ('+' :: m) = '+' :: m := by
    refine trimL_eq_self ?_
    intro x hx
    rcases List.mem_cons.mp hx with rfl | hx
    · decide
    · exact digC_wsC (hd x hx)
  have hplus : headIsPlus ('+' :: m) = true := by simp [headIsPlus]
  rw [normCand, hstrip, htrim, hplus]
  simp only [if_true]
  rw [List.drop_succ_cons, List.drop_zero, filter_digC_eq_self hd]
  have hdlp : dropLeadPlus ('+' :: m) = m := by rw [dropLeadPlus, if_pos rfl]
  rw [hdlp, if_pos ⟨h1, h2⟩]

theorem extract_digits_ge10 {cs : List Char} (hd : ∀ c ∈ cs, digC c = true)
    (h10 : 10 ≤ cs.length) : extractPhoneNumber cs = some (cs.take 10) := by
  cases cs with
  | nil => simp at h10
  | cons c rest =>
    have hlens : lens pat1 (c :: rest) = [10] := lens_pat1_digits hd h10
    have hma : matchAll pat1 (c :: rest) =
        (c :: rest).take 10 :: matchAll pat1 (rest.drop 9) := by
      rw [matchAll_cons, hlens]
      rfl
    have htake : ∀ x ∈ (c :: rest).take 10, digC x = true :=
      fun x hx => hd x (List.mem_of_mem_take hx)
    have hlen10 : ((c :: rest).take 10).length = 10 := by
      rw [List.length_take]
      omega
    have hnc : normCand ((c :: rest).take 10) = some ((c :: rest).take 10) := by
      rw [normCand_digits htake (by omega) (by omega), hlen10]
      norm_num
    have htp : tryPatterns phonePatterns (c :: rest) = some ((c :: rest).take 10) := by
      simp only [phonePatterns, tryPatterns, hma, firstValidCand, hnc]
    simp only [extractPhoneNumber, htp]

theorem extract_digits_short {cs : List Char} (hd : ∀ c ∈ cs, digC c = true)
    (h : cs.length < 10) : extractPhoneNumber cs = none := by
  have m1 : matchAll pat1 cs = [] := matchAll_nil_of_short cs (by show _ < 10; omega)
  have m2 : matchAll pat2 cs = [] := matchAll_nil_of_short cs (by show _ < 10; omega)
  have m3 : matchAll pat3 cs = [] := matchAll_nil_of_short cs (by show _ < 10; omega)
  have m4 : matchAll pat4 cs = [] := matchAll_nil_of_short cs (by show _ < 11; omega)
  have m5 : matchAll pat5 cs = [] :=
    matchAll_nil_of_clsHead _ _ cs (fun x hx => digC_tC (hd x hx))
  have m6 : matchAll pat6 cs = [] :=
    matchAll_nil_of_clsHead _ _ cs (fun x hx => digC_pC (hd x hx))
  have htp : tryPatterns phonePatterns cs = none := by
    simp only [phonePatterns, tryPatterns, m1, m2, m3, m4, m5, m6, firstValidCand]
  simp only [extractPhoneNumber, htp, filter_digC_eq_self hd]
  rw [if_neg (by omega)]

theorem lens_seq_single_nil {a b : RE} {cs : List Char} {n : Nat}
    (ha : lens a cs = [n]) (hb : lens b (cs.drop n) = []) :
    lens (.seq a b) cs = [] := by
  simp [lens, ha, hb]

theorem lens_cgroup_plus {D : List Char} (hd : ∀ c ∈ D, digC c = true)
    (h3 : 3 ≤ D.length) : lens cgroup ('+' :: D) = [4, 3, 2, 0] := by
  match D, h3 with
  | a :: b :: c :: rest, _ =>
    have ha : digC a = true := hd a (by simp)
    have hb : digC b = true := hd b (by simp)
    have hc : digC c = true := hd c (by simp)
    have hsb : sepC b = false := digC_sepC hb
    have hsc : sepC c = false := digC_sepC hc
    have hplus : plusC '+' = true := rfl
    cases rest with
    | nil =>
      simp [cgroup, reOpt, reRange, reCount, reUpTo, optSep, lens, ha, hb, hc, hsb, hsc,
            hplus]
    | cons d rest =>
      have hsd : sepC d = false := digC_sepC (hd d (by simp))
      simp [cgroup, reOpt, reRange, reCount, reUpTo, optSep, lens, ha, hb, hc, hsb, hsc,
            hsd, hplus]

theorem lens_p1rest_plus (D : List Char) : lens p1rest ('+' :: D) = [] := by
  have h1 : lens (reOpt (.cls lparC)) ('+' :: D) = [0] :=
    lens_opt_nil (lens_cls_neg D (by decide))
  have h2 : lens (reCount (.cls digC) 3) ('+' :: D) = [] := by
    show lens (.seq (.cls digC) (reCount (.cls digC) 2)) ('+' :: D) = []
    exact lens_seq_nil_left _ (lens_cls_neg D (by decide))
  have h3 : lens (.seq (reCount (.cls digC) 3) (.seq (reOpt (.cls rparC))
      (.seq optSep (.seq (reCount (.cls digC) 3) (.seq optSep (reCount (.cls digC) 4))))))
      (('+' :: D).drop 0) = [] := by
    simpa using lens_seq_nil_left _ h2
  rw [p1rest]
  exact lens_seq_single_nil h1 h3

theorem lens_seq_eq (a b : RE) (cs : List Char) :
    lens (.seq a b) cs =
      (lens a cs).flatMap (fun n => (lens b (cs.drop n)).map (n + ·)) := rfl

theorem lens_pat1_plus_ge13 {D : List Char} (hd : ∀ c ∈ D, digC c = true)
    (h13 : 13 ≤ D.length) : lens pat1 ('+' :: D) = [14, 13, 12] := by
  have hg : lens cgroup ('+' :: D) = [4, 3, 2, 0] := lens_cgroup_plus hd (by omega)
  have hd1 : ∀ x ∈ D.drop 1, digC x = true := fun x hx => hd x (List.mem_of_mem_drop hx)
  have hd2 : ∀ x ∈ D.drop 2, digC x = true := fun x hx => hd x (List.mem_of_mem_drop hx)
  have hd3 : ∀ x ∈ D.drop 3, digC x = true := fun x hx => hd x (List.mem_of_mem_drop hx)
  have p4 : lens p1rest (D.drop 3) = [10] :=
    lens_p1rest_digits hd3 (by simp only [List.length_drop]; omega)
  have p3 : lens p1rest (D.drop 2) = [10] :=
    lens_p1rest_digits hd2 (by simp only [List.length_drop]; omega)
  have p2 : lens p1rest (D.drop 1) = [10] :=
    lens_p1rest_digits hd1 (by simp only [List.length_drop]; omega)
  have p0 : lens p1rest ('+' :: D) = [] := lens_p1rest_plus D
  rw [pat1, lens_seq_eq, hg]
  simp only [List.flatMap_cons, List.flatMap_nil, List.drop_succ_cons, List.drop_zero]
  rw [p4, p3, p2, p0]
  norm_num

theorem lens_pat1_plus_12 {D : List Char} (hd : ∀ c ∈ D, digC c = true)
    (h12 : D.length = 12) : lens pat1 ('+' :: D) = [13, 12] := by
  have hg : lens cgroup ('+' :: D) = [4, 3, 2, 0] := lens_cgroup_plus hd (by omega)
  have hd1 : ∀ x ∈ D.drop 1, digC x = true := fun x hx => hd x (List.mem_of_mem_drop hx)
  have hd2 : ∀ x ∈ D.drop 2, digC x = true := fun x hx => hd x (List.mem_of_mem_drop hx)
  have p4 : lens p1rest (D.drop 3) = [] := by
    refine lens_nil_of_short ?_
    show _ < 10
    simp only [List.length_drop]
    omega
  have p3 : lens p1rest (D.drop 2) = [10] :=
    lens_p1rest_digits hd2 (by simp only [List.length_drop]; omega)
  have p2 : lens p1rest (D.drop 1) = [10] :=
    lens_p1rest_digits hd1 (by simp only [List.length_drop]; omega)
  have p0 : lens p1rest ('+' :: D) = [] := lens_p1rest_plus D
  rw [pat1, lens_seq_eq, hg]
  simp only [List.flatMap_cons, List.flatMap_nil, List.drop_succ_cons, List.drop_zero]
  rw [p4, p3, p2, p0]
  norm_num

theorem lens_pat1_plus_11 {D : List Char} (hd : ∀ c ∈ D, digC c = true)
    (h11 : D.length = 11) : lens pat1 ('+' :: D) = [12] := by
  have hg : lens cgroup ('+' :: D) = [4, 3, 2, 0] := lens_cgroup_plus hd (by omega)
  have hd1 : ∀ x ∈ D.drop 1, digC x = true := fun x hx => hd x (List.mem_of_mem_drop hx)
  have p4 : lens p1rest (D.drop 3) = [] := by
    refine lens_nil_of_short ?_
    show _ < 10
    simp only [List.length_drop]
    omega
  have p3 : lens p1rest (D.drop 2) = [] := by
    refine lens_nil_of_short ?_
    show _ < 10
    simp only [List.length_drop]
    omega
  have p2 : lens p1rest (D.drop 1) = [10] :=
    lens_p1rest_digits hd1 (by simp only [List.length_drop]; omega)
  have p0 : lens p1rest ('+' :: D) = [] := lens_p1rest_plus D
  rw [pat1, lens_seq_eq, hg]
  simp only [List.flatMap_cons, List.flatMap_nil, List.drop_succ_cons, List.drop_zero]
  rw [p4, p3, p2, p0]
  norm_num

theorem lens_pat1_plus_le10 {D : List Char} (hd : ∀ c ∈ D, digC c = true)
    (h3 : 3 ≤ D.length) (h10 : D.length ≤ 10) : lens pat1 ('+' :: D) = [] := by
  have hg : lens cgroup ('+' :: D) = [4, 3, 2, 0] := lens_cgroup_plus hd h3
  have p4 : lens p1rest (D.drop 3) = [] := by
    refine lens_nil_of_short ?_
    show _ < 10
    simp only [List.length_drop]
    omega
  have p3 : lens p1rest (D.drop 2) = [] := by
    refine lens_nil_of_short ?_
    show _ < 10
    simp only [List.length_drop]
    omega
  have p2 : lens p1rest (D.drop 1) = [] := by
    refine lens_nil_of_short ?_
    show _ < 10
    simp only [List.length_drop]
    omega
  have p0 : lens p1rest ('+' :: D) = [] := lens_p1rest_plus D
  rw [pat1, lens_seq_eq, hg]
  simp only [List.flatMap_cons, List.flatMap_nil, List.drop_succ_cons, List.drop_zero]
  rw [p4, p3, p2, p0]
  norm_num

theorem extract_plus_core {D : List Char} (hd : ∀ c ∈ D, digC c = true) {k : Nat}
    (hk : (lens pat1 ('+' :: D)).head? = some (k + 1)) (hlen : k ≤ D.length)
    (h10 : 10 ≤ k) (h15 : k ≤ 15) :
    extractPhoneNumber ('+' :: D) = some ('+' :: D.take k) := by
  have hma : matchAll pat1 ('+' :: D) = ('+' :: D.take k) :: matchAll pat1 (D.drop k) := by
    rw [matchAll_cons, hk, show (k + 1) = Nat.succ k from rfl]
    rfl
  have htake : ∀ x ∈ D.take k, digC x = true := fun x hx => hd x (List.mem_of_mem_take hx)
  have hlen' : (D.take k).length = k := by rw [List.length_take]; omega
  have hnc : normCand ('+' :: D.take k) = some ('+' :: D.take k) :=
    normCand_plus_digits htake (by omega) (by omega)
  have htp : tryPatterns phonePatterns ('+' :: D) = some ('+' :: D.take k) := by
    simp only [phonePatterns, tryPatterns, hma, firstValidCand, hnc]
  simp only [extractPhoneNumber, htp]

theorem extract_plus_digits_ge13 {D : List Char} (hd : ∀ c ∈ D, digC c = true)
    (h13 : 13 ≤ D.length) :
    extractPhoneNumber ('+' :: D) = some ('+' :: D.take 13) :=
  extract_plus_core hd (by rw [lens_pat1_plus_ge13 hd h13]; rfl) (by omega)
    (by omega) (by omega)

theorem extract_plus_digits_11_13 {D : List Char} (hd : ∀ c ∈ D, digC c = true)
    (ha : 11 ≤ D.length) (hb : D.length ≤ 13) :
    extractPhoneNumber ('+' :: D) = some ('+' :: D) := by
  rcases (by omega : D.length = 11 ∨ D.length = 12 ∨ D.length = 13) with h | h | h
  · have := extract_plus_core hd (k := 11)
      (by rw [lens_pat1_plus_11 hd h]; rfl) (by omega) (by omega) (by omega)
    rwa [← h, List.take_length] at this
  · have := extract_plus_core hd (k := 12)
      (by rw [lens_pat1_plus_12 hd h]; rfl) (by omega) (by omega) (by omega)
    rwa [← h, List.take_length] at this
  · have := extract_plus_core hd (k := 13)
      (by rw [lens_pat1_plus_ge13 hd (by omega)]; rfl) (by omega) (by omega) (by omega)
    rwa [← h, List.take_length] at this

theorem extract_plus_digits_10 {D : List Char} (hd : ∀ c ∈ D, digC c = true)
    (h10 : D.length = 10) : extractPhoneNumber ('+' :: D) = some D := by
  have hl : lens pat1 ('+' :: D) = [] := lens_pat1_plus_le10 hd (by omega) (by omega)
  have hma0 : matchAll pat1 ('+' :: D) = matchAll pat1 D := by
    rw [matchAll_cons, hl]
    rfl
  cases D with
  | nil => simp at h10
  | cons d rest =>
    have hlens : lens pat1 (d :: rest) = [10] := lens_pat1_digits hd (by omega)
    have htake : (d :: rest).take 10 = d :: rest := by
      rw [← h10, List.take_length]
    have hma : matchAll pat1 (d :: rest) =
        (d :: rest).take 10 :: matchAll pat1 (rest.drop 9) := by
      rw [matchAll_cons, hlens]
      rfl
    rw [htake] at hma
    have hnc : normCand (d :: rest) = some (d :: rest) := by
      rw [normCand_digits hd (by omega) (by omega), if_neg (by omega)]
    have htp : tryPatterns phonePatterns ('+' :: d :: rest) = some (d :: rest) := by
      simp only [phonePatterns, tryPatterns, hma0, hma, firstValidCand, hnc]
    simp only [extractPhoneNumber, htp]

theorem firstValidCand_eq_findSome (ms : List (List Char)) :
    firstValidCand ms = ms.findSome? normCand := by
  induction ms with
  | nil => rfl
  | cons m ms ih =>
    rw [firstValidCand, List.findSome?_cons]
    cases normCand m <;> simp [ih]

theorem tryPatterns_eq_findSome (ps : List RE) (cs : List Char) :
    tryPatterns ps cs = ps.findSome? (fun p => (matchAll p cs).findSome? normCand) := by
  induction ps with
  | nil => rfl
  | cons p ps ih =>
    rw [tryPatterns, List.findSome?_cons, ← firstValidCand_eq_findSome]
    cases firstValidCand (matchAll p cs) <;> simp [ih]

theorem normCand_valid {m r : List Char} (h : normCand m = some r) : validCand r := by
  rw [normCand] at h
  set phone0 := trimL (stripTelPhone m) with hphone0
  by_cases hp : headIsPlus phone0 = true
  · rw [if_pos hp] at h
    simp only [hp, if_true] at h
    set ds := (phone0.drop 1).filter digC with hds
    have hdrop : dropLeadPlus ('+' :: ds) = ds := by rw [dropLeadPlus, if_pos rfl]
    rw [hdrop] at h
    split at h
    · rename_i hrange
      injection h with h
      subst h
      refine ⟨?_, ?_, ?_⟩
      · rw [hdrop, List.all_eq_true]
        intro x hx
        exact List.of_mem_filter hx
      · rw [hdrop]; exact hrange.1
      · rw [hdrop]; exact hrange.2
    · exact absurd h (by simp)
  · rw [if_neg hp] at h
    simp only [Bool.not_eq_true] at hp
    simp only [hp, Bool.false_eq_true, if_false] at h
    set ds := phone0.filter digC with hds
    have hdall : ∀ x ∈ ds, digC x = true := fun x hx => List.of_mem_filter hx
    have hdrop : dropLeadPlus ds = ds := by
      cases hd : ds with
      | nil => rfl
      | cons c rest =>
        rw [dropLeadPlus, if_neg (digC_not_plus (hdall c (hd ▸ List.mem_cons_self c rest)))]
    rw [hdrop] at h
    split at h
    · rename_i hrange
      split at h
      · injection h with h
        subst h
        have hdlp : dropLeadPlus ('+' :: ds) = ds := by rw [dropLeadPlus, if_pos rfl]
        refine ⟨?_, ?_, ?_⟩
        · rw [hdlp, List.all_eq_true]; exact hdall
        · rw [hdlp]; exact hrange.1
        · rw [hdlp]; exact hrange.2
      · injection h with h
        subst h
        refine ⟨?_, ?_, ?_⟩
        · rw [hdrop, List.all_eq_true]; exact hdall
        · rw [hdrop]; exact hrange.1
        · rw [hdrop]; exact hrange.2
    · exact absurd h (by simp)

theorem firstValidCand_valid {ms : List (List Char)} {r : List Char}
    (h : firstValidCand ms = some r) : validCand r := by
  induction ms with
  | nil => exact absurd h (by simp [firstValidCand])
  | cons m ms ih =>
    rw [firstValidCand] at h
    cases hm : normCand m with
    | none => rw [hm] at h; exact ih h
    | some r' =>
      rw [hm] at h
      injection h with h
      subst h
      exact normCand_valid hm

theorem tryPatterns_valid {ps : List RE} {cs r : List Char}
    (h : tryPatterns ps cs = some r) : validCand r := by
  induction ps with
  | nil => exact absurd h (by simp [tryPatterns])
  | cons p ps ih =>
    rw [tryPatterns] at h
    cases hm : firstValidCand (matchAll p cs) with
    | none => rw [hm] at h; exact ih h
    | some r' =>
      rw [hm] at h
      injection h with h
      subst h
      exact firstValidCand_valid hm

theorem scanVideoFrame_inactive {s : ScanState} (h : s.timerActive = false)
    (x : Option (List Char)) : scanVideoFrame s x = s := by
  rw [scanVideoFrame.eq_def, if_pos h]

theorem runScan_inactive {s : ScanState} (h : s.timerActive = false)
    (ticks : List (Option (List Char))) : runScan s ticks = s := by
  induction ticks with
  | nil => rfl
  | cons x ticks ih =>
    show runScan (scanVideoFrame s x) ticks = s
    rw [scanVideoFrame_inactive h x, ih]

theorem scanVideoFrame_notFound {s : ScanState} {x : Option (List Char)}
    (hx : ∀ t, x = some t → extractPhoneNumber t = none)
    (h1 : s.timerActive = true) (h2 : s.streamHeld = true)
    (h3 : s.phoneNumber = none) (h4 : s.scanned = false) (h5 : s.foundCount = 0) :
    (scanVideoFrame s x).timerActive = true ∧ (scanVideoFrame s x).streamHeld = true ∧
    (scanVideoFrame s x).phoneNumber = none ∧ (scanVideoFrame s x).scanned = false ∧
    (scanVideoFrame s x).foundCount = 0 := by
  rw [scanVideoFrame.eq_def, if_neg (by simp [h1])]
  cases x with
  | none => exact ⟨h1, h2, h3, h4, h5⟩
  | some d =>
    have hd : extractPhoneNumber d = none := hx d rfl
    simp [hd, h1, h2, h3, h4, h5]

theorem runScan_notFound {ticks : List (Option (List Char))}
    (ht : ∀ x ∈ ticks, ∀ t, x = some t → extractPhoneNumber t = none) :
    ∀ s : ScanState, s.timerActive = true → s.streamHeld = true →
    s.phoneNumber = none → s.scanned = false → s.foundCount = 0 →
    (runScan s ticks).timerActive = true ∧ (runScan s ticks).streamHeld = true ∧
    (runScan s ticks).phoneNumber = none ∧ (runScan s ticks).scanned = false ∧
    (runScan s ticks).foundCount = 0 := by
  induction ticks with
  | nil => intro s h1 h2 h3 h4 h5; exact ⟨h1, h2, h3, h4, h5⟩
  | cons x ticks ih =>
    intro s h1 h2 h3 h4 h5
    have hx := scanVideoFrame_notFound (ht x (List.mem_cons_self x ticks)) h1 h2 h3 h4 h5
    exact ih (fun y hy => ht y (List.mem_cons_of_mem x hy)) (scanVideoFrame s x)
      hx.1 hx.2.1 hx.2.2.1 hx.2.2.2.1 hx.2.2.2.2

theorem scanVideoFrame_found {s : ScanState} {d p : List Char}
    (hd : extractPhoneNumber d = some p)
    (h1 : s.timerActive = true) (h5 : s.foundCount = 0) :
    scanVideoFrame s (some d) =
      { s with timerActive := false, streamHeld := false, phoneNumber := some p,
               scanned := true, lastContent := some d, foundCount := 1 } := by
  rw [scanVideoFrame, if_neg (by simp [h1]), hd]
  simp [stopScanning, h5]

theorem dropLeadPlus_length_le (cs : List Char) :
    (dropLeadPlus cs).length ≤ cs.length := by
  cases cs with
  | nil => simp [dropLeadPlus]
  | cons c rest =>
    rw [dropLeadPlus]
    split <;> simp

/-- C1 (amended): for every digit string `D` with `10 ≤ |D| ≤ 15`,
`extractPhoneNumber D` returns the first 10 digits of `D` without a `+`
(which is `D` itself exactly when `|D| = 10`); for `11 ≤ |D| ≤ 15` it
does *not* return `'+' ++ D`, because the first pattern (3-3-4 digit
groups) already matches the first 10 digits and that candidate
validates. -/
theorem claim1_digit_strings (D : List Char) (hd : ∀ c ∈ D, digC c = true)
    (h1 : 10 ≤ D.length) (_h2 : D.length ≤ 15) :
    extractPhoneNumber D = some (D.take 10) :=
  extract_digits_ge10 hd h1

/-- C1 counterexample: on the 11-digit string "12345678901" the claim
expects "+12345678901"; the code returns the first 10 digits
"1234567890" instead. -/
theorem claim1_counterexample :
    extractPhoneNumber "12345678901".toList = some "1234567890".toList ∧
    ¬ extractPhoneNumber "12345678901".toList = some "+12345678901".toList := by
  constructor
  · decide
  · decide

theorem claim1_witness :
    extractPhoneNumber "123456789012345".toList =
      some ("123456789012345".toList.take 10) :=
  claim1_digit_strings _ (by decide) (by decide) (by decide)

/-- C2 (amended): for every digit string `D`, `extractPhoneNumber D`
returns none when `|D| < 10`; but when `|D| > 15` it does *not* return
none — it returns the first 10 digits of `D`, because the first pattern
matches any 10 consecutive digits. -/
theorem claim2_out_of_range (D : List Char) (hd : ∀ c ∈ D, digC c = true) :
    (D.length < 10 → extractPhoneNumber D = none) ∧
    (15 < D.length → extractPhoneNumber D = some (D.take 10)) := by
  constructor
  · intro h
    exact extract_digits_short hd h
  · intro h
    exact extract_digits_ge10 hd (by omega)

/-- C2 counterexample: on the 16-digit string "1234567890123456" the
claim expects none; the code returns "1234567890". -/
theorem claim2_counterexample :
    extractPhoneNumber "1234567890123456".toList = some "1234567890".toList ∧
    ¬ extractPhoneNumber "1234567890123456".toList = none := by
  constructor
  · decide
  · decide

theorem claim2_witness :
    extractPhoneNumber "123456789".toList = none :=
  (claim2_out_of_range "123456789".toList (by decide)).1 (by decide)

/-- C3: the extractor is exactly the spec's ordered-matcher algorithm:
the six patterns are tried in their fixed order; within the first
pattern that has matches the candidates are normalized and validated in
match order and the first validated one is returned; a pattern none of
whose candidates validate passes control to the next pattern; the
whole-input digit-strip fallback runs only after all six patterns are
exhausted. -/
theorem claim3_pattern_order (cs : List Char) :
    extractPhoneNumber cs = specExtract cs := by
  simp only [extractPhoneNumber, specExtract, tryPatterns_eq_findSome]

/-- C4: whenever no pattern produces a validated candidate, the
extractor strips every non-digit character of the whole input to one
residual run `R` and returns `R` when `|R| = 10`, `'+' ++ R` when
`11 ≤ |R| ≤ 15`, and none otherwise. -/
theorem claim4_fallback (cs : List Char)
    (h : tryPatterns phonePatterns cs = none) :
    extractPhoneNumber cs =
      (if (cs.filter digC).length = 10 then some (cs.filter digC)
       else if 11 ≤ (cs.filter digC).length ∧ (cs.filter digC).length ≤ 15 then
         some ('+' :: cs.filter digC)
       else none) := by
  simp only [extractPhoneNumber, h]
  split_ifs <;> first | rfl | omega

theorem claim4_witness :
    extractPhoneNumber "12 34 56 78 90".toList =
      (if ((("12 34 56 78 90".toList).filter digC).length = 10 : Prop) then
        some (("12 34 56 78 90".toList).filter digC)
       else if 11 ≤ (("12 34 56 78 90".toList).filter digC).length ∧
           (("12 34 56 78 90".toList).filter digC).length ≤ 15 then
         some ('+' :: ("12 34 56 78 90".toList).filter digC)
       else none) :=
  claim4_fallback _ (by decide)

/-- C5: every non-none result of the extractor satisfies the
`PhoneCandidate` invariant — an optional leading `+` followed only by
digits, with 10 to 15 digits (excluding the `+`). -/
theorem claim5_invariant (cs r : List Char) (h : extractPhoneNumber cs = some r) :
    validCand r := by
  cases ht : tryPatterns phonePatterns cs with
  | some r' =>
    simp only [extractPhoneNumber, ht, Option.some.injEq] at h
    subst h
    exact tryPatterns_valid ht
  | none =>
    simp only [extractPhoneNumber, ht] at h
    have hall : ∀ x ∈ cs.filter digC, digC x = true := fun x hx => List.of_mem_filter hx
    split at h
    · rename_i hrange
      split at h <;> injection h with h <;> subst h
      · have hdlp : dropLeadPlus ('+' :: cs.filter digC) = cs.filter digC := by
          rw [dropLeadPlus, if_pos rfl]
        exact ⟨by rw [hdlp, List.all_eq_true]; exact hall,
               by rw [hdlp]; exact hrange.1, by rw [hdlp]; exact hrange.2⟩
      · have hdlp : dropLeadPlus (cs.filter digC) = cs.filter digC := by
          cases hf : cs.filter digC with
          | nil => rfl
          | cons c rest =>
            rw [dropLeadPlus,
                if_neg (digC_not_plus (hall c (hf ▸ List.mem_cons_self c rest)))]
        exact ⟨by rw [hdlp, List.all_eq_true]; exact hall,
               by rw [hdlp]; exact hrange.1, by rw [hdlp]; exact hrange.2⟩
    · exact absurd h (by simp)

theorem claim5_witness : validCand "+12025550172".toList :=
  claim5_invariant "tel:+1-202-555-0172".toList _ (by decide)

/-- C6 (amended): re-extraction is the identity only on part of the
extractor's own output range.  For digit strings `D`: a bare 10-digit
output re-extracts to itself, and a `'+'`-prefixed output with 11 to 13
digits re-extracts to itself; but a `'+'`-prefixed output with exactly
10 digits re-extracts to the bare 10 digits (the `+` is lost), and a
`'+'`-prefixed output with 14 or 15 digits re-extracts to `'+'` plus
its first 13 digits. -/
theorem claim6_idempotence (D : List Char) (hd : ∀ c ∈ D, digC c = true) :
    (D.length = 10 → extractPhoneNumber D = some D) ∧
    (11 ≤ D.length → D.length ≤ 13 →
      extractPhoneNumber ('+' :: D) = some ('+' :: D)) ∧
    (D.length = 10 → extractPhoneNumber ('+' :: D) = some D) ∧
    (14 ≤ D.length → D.length ≤ 15 →
      extractPhoneNumber ('+' :: D) = some ('+' :: D.take 13)) := by
  refine ⟨?_, ?_, ?_, ?_⟩
  · intro h
    have := extract_digits_ge10 hd (by omega)
    rwa [← h, List.take_length] at this
  · intro ha hb
    exact extract_plus_digits_11_13 hd ha hb
  · intro h
    exact extract_plus_digits_10 hd h
  · intro ha _hb
    exact extract_plus_digits_ge13 hd (by omega)

/-- C6 counterexample: "+1234567890" is a producible output (a
`'+'`-prefixed candidate with 10 digits, e.g. from the QR payload
"tel:+1-234-567-890"), yet re-extracting it yields "1234567890", not
itself. -/
theorem claim6_counterexample :
    extractPhoneNumber "tel:+1-234-567-890".toList = some "+1234567890".toList ∧
    extractPhoneNumber "+1234567890".toList = some "1234567890".toList ∧
    ¬ extractPhoneNumber "+1234567890".toList = some "+1234567890".toList := by
  refine ⟨?_, ?_, ?_⟩ <;> decide

theorem claim6_witness :
    extractPhoneNumber "1234567890".toList = some "1234567890".toList :=
  (claim6_idempotence "1234567890".toList (by decide)).1 (by decide)

/-- C7: in a scanning session, the first poll tick whose decoded payload
yields a validated phone candidate clears the poll timer and releases
the capture stream, and the session reports exactly one found outcome —
the one from that first validating tick; the ticks after it leave the
state untouched (the timer is gone), and a tick that decodes but fails
extraction sets the error, does not count as found, and leaves the
timer running. -/
theorem claim7_single_found (pre post : List (Option (List Char))) (d p : List Char)
    (hpre : ∀ x ∈ pre, ∀ t, x = some t → extractPhoneNumber t = none)
    (hd : extractPhoneNumber d = some p) :
    (runScan startedScan (pre ++ some d :: post)).timerActive = false ∧
    (runScan startedScan (pre ++ some d :: post)).streamHeld = false ∧
    (runScan startedScan (pre ++ some d :: post)).phoneNumber = some p ∧
    (runScan startedScan (pre ++ some d :: post)).scanned = true ∧
    (runScan startedScan (pre ++ some d :: post)).foundCount = 1 ∧
    (∀ (s : ScanState) (t : List Char), s.timerActive = true →
      extractPhoneNumber t = none →
      (scanVideoFrame s (some t)).timerActive = true ∧
      (scanVideoFrame s (some t)).streamHeld = s.streamHeld ∧
      (scanVideoFrame s (some t)).errorSet = true ∧
      (scanVideoFrame s (some t)).foundCount = s.foundCount) := by
  have hmid := runScan_notFound hpre startedScan rfl rfl rfl rfl rfl
  have hstep := scanVideoFrame_found hd hmid.1 hmid.2.2.2.2
  have hfin : runScan startedScan (pre ++ some d :: post) =
      { runScan startedScan pre with
          timerActive := false, streamHeld := false, phoneNumber := some p,
          scanned := true, lastContent := some d, foundCount := 1 } := by
    have hsplit : runScan startedScan (pre ++ some d :: post) =
        runScan (scanVideoFrame (runScan startedScan pre) (some d)) post := by
      rw [runScan, List.foldl_append]
      rfl
    rw [hsplit, hstep, runScan_inactive rfl]
  refine ⟨by rw [hfin], by rw [hfin], by rw [hfin], by rw [hfin], by rw [hfin], ?_⟩
  intro s t h1 hnone
  rw [scanVideoFrame.eq_def, if_neg (by simp [h1])]
  simp [hnone, h1]

theorem claim7_witness :
    (runScan startedScan
      ([none, some "hello".toList] ++
        some "1234567890".toList :: [some "9876543210".toList])).foundCount = 1 := by
  have h := claim7_single_found [none, some "hello".toList] [some "9876543210".toList]
    "1234567890".toList "1234567890".toList ?_ (by decide)
  · exact h.2.2.2.2.1
  · intro x hx t ht
    simp only [List.mem_cons, List.not_mem_nil, or_false] at hx
    rcases hx with rfl | rfl
    · cases ht
    · cases ht
      decide

/-- C8: with the phone-number state as the extractor leaves it (empty or
a valid `PhoneCandidate`), the SMS hand-off fails with an error and
requests no navigation whenever the trimmed message is empty or the
candidate's digit count is below 10; when both preconditions hold it
requests navigation to exactly
`sms:<phone>?body=<url-encoded message>`, sending nothing itself. -/
theorem claim8_sendSms (phone msg : List Char)
    (hreach : phone = [] ∨ validCand phone) :
    ((trimL msg = [] ∨ (dropLeadPlus phone).length < 10) →
      ∃ e, sendSms phone msg = SmsOutcome.failure e) ∧
    (¬ trimL msg = [] → ¬ (dropLeadPlus phone).length < 10 →
      sendSms phone msg =
        SmsOutcome.navigate
          ("sms:".toList ++ phone ++ "?body=".toList ++ encodeURIComponent msg)) := by
  rcases hreach with rfl | hvalid
  · constructor
    · intro _
      rw [sendSms, if_pos (by simp)]
      exact ⟨_, rfl⟩
    · intro _ hdc
      exact absurd (by simp [dropLeadPlus] : (dropLeadPlus []).length < 10) hdc
  · have h10 : 10 ≤ (dropLeadPlus phone).length := hvalid.2.1
    have hlen : 10 ≤ phone.length := le_trans h10 (dropLeadPlus_length_le phone)
    constructor
    · intro hor
      rcases hor with htrim | hdc
      · rw [sendSms, if_neg (by omega), if_pos htrim]
        exact ⟨_, rfl⟩
      · omega
    · intro htrim _
      rw [sendSms, if_neg (by omega), if_neg htrim]

theorem claim8_witness :
    sendSms "1234567890".toList "hi there".toList =
      SmsOutcome.navigate
        ("sms:".toList ++ "1234567890".toList ++ "?body=".toList ++
          encodeURIComponent "hi there".toList) :=
  (claim8_sendSms _ _ (Or.inr (by decide))).2 (by decide) (by decide)

/-- C9: the file-selection handler invokes file processing (the only
path to the decoder) exactly when the file's declared media type starts
with "image/", and reports the invalid-file-type error exactly when it
does not. -/
theorem claim9_fileSelect (f : UploadFile) :
    (handleFileSelect (some f) = FileAction.processed ↔
      ("image/".toList).isPrefixOf f.mediaType = true) ∧
    (handleFileSelect (some f) = FileAction.invalidType ↔
      ("image/".toList).isPrefixOf f.mediaType = false) := by
  cases h : ("image/".toList).isPrefixOf f.mediaType <;>
    simp [handleFileSelect, h, ← List.isPrefixOf_iff_prefix] <;> simpa using h

/-- C10: every failure of the camera-permission request returns false;
the permission state becomes denied exactly when the failure is
`NotAllowedError`, and is left unchanged for `NotFoundError` and every
other failure (only the error message differs between those cases). -/
theorem claim10_permission (st : PermState) (f : CamFail) :
    (requestCameraPermission st (some f)).returned = false ∧
    (requestCameraPermission st (some f)).perm =
      (if f = CamFail.notAllowed then PermState.denied else st) := by
  cases f <;> simp [requestCameraPermission]
